import Mathlib

/-!
Verification of the DipDECK core (`cluspy/deep/dipdeck.py`) against its
natural-language specification.

The embedding below follows the Python source closely:

* numpy arrays of scalars become `List ℚ`; arrays of points become
  `List (List ℚ)`; machine floats are modelled as exact rationals.
* `cdist` produces Euclidean distances, used by the code only through
  `argmin` / `argsort`; since `Real.sqrt` is strictly monotone on squared
  distances, ordering by Euclidean distance coincides with ordering by
  squared distance, and the embedding uses the (rational) squared distance
  as the comparison key.
* the external collaborators (`dip_test`, `dip_pval`, the autoencoder, the
  optimizer, KMeans) are parameters: arbitrary functions, per the spec's
  external-interface section.
* fallible numpy operations (slicing an index array with a float bound)
  are modelled with `Option`.
-/

namespace ClustPy

/-- Componentwise difference of two vectors (numpy `u - v`). -/
def vsub (u v : List ℚ) : List ℚ := List.zipWith (fun a b => a - b) u v

/-- Dot product of two vectors (numpy `np.dot` for 1-d operands). -/
def dot (u v : List ℚ) : ℚ := (List.zipWith (fun a b => a * b) u v).sum

/-- Squared Euclidean distance between two vectors.  The Python code uses
`scipy.spatial.distance.cdist` (Euclidean) but only ever compares or sorts
such distances, so the squared distance is an order-isomorphic key. -/
def sqDist (u v : List ℚ) : ℚ := ((vsub u v).map (fun d => d * d)).sum

/-- Index of the first minimal element of a list of rationals
(`np.argmin` semantics: ties resolved to the smallest index; 0 on an
empty list, where numpy would raise). -/
def idxOfMinQ : List ℚ → ℕ
  | [] => 0
  | x :: xs => if xs.all (fun y => decide (x ≤ y)) then 0 else idxOfMinQ xs + 1

/-- Index of the first minimal element of a list of naturals
(`np.argmin` on a count vector). -/
def idxOfMinN : List ℕ → ℕ
  | [] => 0
  | x :: xs => if xs.all (fun y => decide (x ≤ y)) then 0 else idxOfMinN xs + 1

/-- Number of samples carrying cluster label `c`
(`len(cluster_labels_cpu[cluster_labels_cpu == c])`, dipdeck.py:348-349). -/
def countLabel (labels : List ℕ) (c : ℕ) : ℕ :=
  (labels.filter (fun l => decide (l = c))).length

/-- The embedded points currently labelled `c`
(`embedded_data[cluster_labels_cpu == c]`, dipdeck.py:469-470). -/
def pointsIn (data : List (List ℚ)) (labels : List ℕ) (c : ℕ) : List (List ℚ) :=
  ((data.zip labels).filter (fun p => decide (p.2 = c))).map (fun p => p.1)

/-- Per-sample nearest-center assignment
(`np.argmin(cdist(embedded_centers_cpu, embedded_data), axis=0)`,
dipdeck.py:235): every sample receives the index of the first center at
minimal (Euclidean, hence squared) distance. -/
def assignLabels (embCenters embData : List (List ℚ)) : List ℕ :=
  embData.map (fun x => idxOfMinQ (embCenters.map (fun c => sqDist c x)))

/-- The number of points `_get_nearest_points` (dipdeck.py:432-434) will
slice from the sorted index array.  `sample_size = size_smaller_cluster *
max_cluster_size_diff_factor` is a Python float whenever the factor is one;
numpy refuses a non-integer slice bound, which the embedding models as
`none`.  In the small-cluster branch (dipdeck.py:433-434) the bound
`min(min_sample_size - size_smaller_cluster, len(points))` is an integer
and the slice always succeeds. -/
def targetCount (numPts s : ℕ) (tau : ℚ) (f : ℕ) : Option ℕ :=
  let sample : ℚ := (s : ℚ) * tau
  if (s : ℚ) + sample < (f : ℚ) then some (min (f - s) numPts)
  else if sample.den = 1 ∧ 0 ≤ sample.num then some sample.num.toNat
  else none

/-- The subset of the larger cluster used for the dip re-computation
(`_get_nearest_points`, dipdeck.py:404-436): the indices of
`points_in_larger_cluster` sorted by (squared) distance to the smaller
cluster's center, truncated to `targetCount` many, mapped back to points. -/
def getNearestPoints (pts : List (List ℚ)) (center : List ℚ) (s : ℕ) (tau : ℚ)
    (f : ℕ) : Option (List (List ℚ)) :=
  let key : ℕ → ℚ := fun idx => sqDist (pts.getD idx []) center
  let order := (List.range pts.length).mergeSort (fun a b => decide (key a ≤ key b))
  (targetCount pts.length s tau f).map (fun c => (order.take c).map (fun idx => pts.getD idx []))

/-- The index list `idxOfMinQ` returns is in bounds on a nonempty list. -/
theorem idxOfMinQ_lt_length (xs : List ℚ) (h : xs ≠ []) : idxOfMinQ xs < xs.length := by
  induction xs with
  | nil => simp at h
  | cons x xs ih =>
    rw [idxOfMinQ]
    cases hx : xs.all (fun y => decide (x ≤ y)) with
    | true => simp
    | false =>
      rcases xs with _ | ⟨y, ys⟩
      · simp at hx
      · have := ih (by simp)
        simp only [hx, Bool.false_eq_true, if_false, List.length_cons] at this ⊢
        omega

/-- The index list `idxOfMinN` returns is in bounds on a nonempty list. -/
theorem idxOfMinN_lt_length (xs : List ℕ) (h : xs ≠ []) : idxOfMinN xs < xs.length := by
  induction xs with
  | nil => simp at h
  | cons x xs ih =>
    rw [idxOfMinN]
    cases hx : xs.all (fun y => decide (x ≤ y)) with
    | true => simp
    | false =>
      rcases xs with _ | ⟨y, ys⟩
      · simp at hx
      · have := ih (by simp)
        simp only [hx, Bool.false_eq_true, if_false, List.length_cons] at this ⊢
        omega

/-- Length of the subset returned by `getNearestPoints` when the slice
bound is well defined: the target count, truncated to the number of
available points. -/
theorem getNearestPoints_length (pts : List (List ℚ)) (center : List ℚ) (s : ℕ)
    (tau : ℚ) (f : ℕ) (c : ℕ) (hc : targetCount pts.length s tau f = some c) :
    (getNearestPoints pts center s tau f).map List.length = some (min c pts.length) := by
  rw [getNearestPoints, hc]
  simp [List.length_take, List.length_mergeSort]

/-- Per-label relabeling rule of the merge executor
(`_merge_by_dip_value`, dipdeck.py:351-359), called with the already
decremented cluster count `n`: labels `a` and `b` collapse to the new top
label `n - 1`; labels below both are kept; labels above both shift down by
2; the remaining labels (strictly between `a` and `b`) shift down by 1. -/
def mergeRelabel (a b n l : ℕ) : ℕ :=
  if l = a ∨ l = b then n - 1
  else if l < a ∧ l < b then l
  else if a < l ∧ b < l then l - 2
  else l - 1

/-- The merge executor's label update applied to the whole label array
(the `for j, l in enumerate(cluster_labels_cpu)` loop, dipdeck.py:351-359). -/
def mergeLabels (a b n : ℕ) (labels : List ℕ) : List ℕ :=
  labels.map (mergeRelabel a b n)

/-- Reassignment of the dissolved smallest cluster's points
(dipdeck.py:284): each sample whose label equals `sid` receives the index
of its nearest surviving center; `target j` is that (external,
distance-dependent) index for the sample at position `j`. -/
def reassignSmall (target : ℕ → ℕ) (sid : ℕ) : List ℕ → ℕ → List ℕ
  | [], _ => []
  | l :: ls, j => (if l = sid then target j else l) :: reassignSmall target sid ls (j + 1)

/-- The forced-removal label update (dipdeck.py:284-285): reassign the
dissolved cluster's points, then shift every label at least `sid` down by
one. -/
def removeRelabel (target : ℕ → ℕ) (sid : ℕ) (labels : List ℕ) : List ℕ :=
  (reassignSmall target sid labels 0).map (fun l => if sid ≤ l then l - 1 else l)

/-- Labels form the contiguous integer range `[0, n)`: no label outside
the range, and every value in the range has at least one member. -/
def contiguousLabels (n : ℕ) (labels : List ℕ) : Prop :=
  (∀ l ∈ labels, l < n) ∧ ∀ k < n, k ∈ labels

instance (n : ℕ) (labels : List ℕ) : Decidable (contiguousLabels n labels) := by
  unfold contiguousLabels; infer_instance

/-- The divisor of the merged-center computation
(`points_in_center_1 + points_in_center_2`, dipdeck.py:361-363). -/
def mergeCenterDenom (labels : List ℕ) (a b : ℕ) : ℚ :=
  (countLabel labels a : ℚ) + (countLabel labels b : ℚ)

/-- The size-weighted optimal position of the merged center
(dipdeck.py:361-363): componentwise
`(centers[a]*c1 + centers[b]*c2) / (c1 + c2)`. -/
def mergedOptimalCenter (embCenters : List (List ℚ)) (labels : List ℕ) (a b : ℕ) : List ℚ :=
  List.zipWith
    (fun x y => (x * (countLabel labels a : ℚ) + y * (countLabel labels b : ℚ)) /
      mergeCenterDenom labels a b)
    (embCenters.getD a []) (embCenters.getD b [])

/-- The four configuration rejections of `_dip_deck` (dipdeck.py:78-85),
checked in source order before any training work starts. -/
inductive ConfigError where
  | maxLtMin
  | minNonpos
  | startLtMin
  | thrOutOfRange
deriving DecidableEq

/-- Fail-fast configuration validation of `_dip_deck` (dipdeck.py:78-85):
the first violated rule, or `none` when the configuration is accepted. -/
def validateConfig (nStart nMax nMin : ℤ) (thr : ℚ) : Option ConfigError :=
  if nMax < nMin then some ConfigError.maxLtMin
  else if nMin ≤ 0 then some ConfigError.minNonpos
  else if nStart < nMin then some ConfigError.startLtMin
  else if thr < 0 ∨ 1 < thr then some ConfigError.thrOutOfRange
  else none

/-- An element of `reassignSmall` is either an original non-`sid` label or
a value produced by `target`. -/
theorem mem_reassignSmall (target : ℕ → ℕ) (sid : ℕ) (ls : List ℕ) (j : ℕ) (x : ℕ)
    (hx : x ∈ reassignSmall target sid ls j) :
    (x ∈ ls ∧ x ≠ sid) ∨ ∃ j0, x = target j0 := by
  induction ls generalizing j with
  | nil => simp [reassignSmall] at hx
  | cons l ls ih =>
    rw [reassignSmall] at hx
    rcases List.mem_cons.mp hx with h | h
    · by_cases hl : l = sid
      · right; exact ⟨j, by simpa [hl] using h⟩
      · left; simp [hl] at h; refine ⟨?_, ?_⟩ <;> simp [h, hl]
    · rcases ih (j + 1) h with ⟨h1, h2⟩ | h1
      · exact Or.inl ⟨List.mem_cons_of_mem _ h1, h2⟩
      · exact Or.inr h1

/-- Every original label different from `sid` survives `reassignSmall`. -/
theorem mem_reassignSmall_of_mem (target : ℕ → ℕ) (sid : ℕ) (ls : List ℕ) (j : ℕ) (x : ℕ)
    (hx : x ∈ ls) (hne : x ≠ sid) : x ∈ reassignSmall target sid ls j := by
  induction ls generalizing j with
  | nil => simp at hx
  | cons l ls ih =>
    rw [reassignSmall]
    rcases List.mem_cons.mp hx with h | h
    · subst h; simp [hne]
    · exact List.mem_cons_of_mem _ (ih (j + 1) h)

/-- After a merge with post-decrement count `n`, every relabeled value is
inside `[0, n)`. -/
theorem mergeRelabel_lt (a b n l : ℕ) (hab : a ≠ b) (ha : a < n + 1) (hb : b < n + 1)
    (hl : l < n + 1) : mergeRelabel a b n l < n := by
  unfold mergeRelabel; split_ifs <;> omega

/-- Every value of the shrunken range `[0, n)` is hit by the merge
relabeling from inside the old range `[0, n + 1)`. -/
theorem mergeRelabel_surj (a b n k : ℕ) (hab : a ≠ b) (ha : a < n + 1) (hb : b < n + 1)
    (hk : k < n) : ∃ l, l < n + 1 ∧ mergeRelabel a b n l = k := by
  rcases Nat.lt_or_ge k (min a b) with hlo | hlo
  · exact ⟨k, by omega, by unfold mergeRelabel; split_ifs <;> omega⟩
  · by_cases htop : k = n - 1
    · exact ⟨a, by omega, by unfold mergeRelabel; split_ifs <;> omega⟩
    · by_cases hmid : k + 1 < max a b
      · exact ⟨k + 1, by omega, by unfold mergeRelabel; split_ifs <;> omega⟩
      · exact ⟨k + 2, by omega, by unfold mergeRelabel; split_ifs <;> omega⟩

/-- The merge executor's relabeling keeps the labels a contiguous range:
merging two occupied clusters of a gap-free `[0, n + 1)` labeling yields a
gap-free `[0, n)` labeling. -/
theorem mergeLabels_contiguous (a b n : ℕ) (labels : List ℕ) (hab : a ≠ b)
    (ha : a < n + 1) (hb : b < n + 1) (hc : contiguousLabels (n + 1) labels) :
    contiguousLabels n (mergeLabels a b n labels) := by
  obtain ⟨hlt, hsurj⟩ := hc
  constructor
  · intro m hm
    rw [mergeLabels, List.mem_map] at hm
    obtain ⟨l, hl, rfl⟩ := hm
    exact mergeRelabel_lt a b n l hab ha hb (hlt l hl)
  · intro k hk
    obtain ⟨l, hln, hrel⟩ := mergeRelabel_surj a b n k hab ha hb hk
    rw [mergeLabels, List.mem_map]
    exact ⟨l, hsurj l hln, hrel⟩

/-- The forced-removal relabeling (dipdeck.py:284-285) keeps the labels a
contiguous range, provided every reassignment target is a surviving
cluster (the code guarantees this by setting the dissolved center's
distance row to infinity before the argmin). -/
theorem removeRelabel_contiguous (target : ℕ → ℕ) (sid n : ℕ) (labels : List ℕ)
    (hsid : sid < n + 1) (hn : 1 ≤ n)
    (htar : ∀ j, target j < n + 1 ∧ target j ≠ sid)
    (hc : contiguousLabels (n + 1) labels) :
    contiguousLabels n (removeRelabel target sid labels) := by
  obtain ⟨hlt, hsurj⟩ := hc
  constructor
  · intro m hm
    rw [removeRelabel, List.mem_map] at hm
    obtain ⟨y, hy, rfl⟩ := hm
    have hyb : y < n + 1 ∧ y ≠ sid := by
      rcases mem_reassignSmall target sid labels 0 y hy with ⟨h1, h2⟩ | ⟨j0, rfl⟩
      · exact ⟨hlt y h1, h2⟩
      · exact htar j0
    split_ifs <;> omega
  · intro k hk
    rw [removeRelabel, List.mem_map]
    refine ⟨if k < sid then k else k + 1, ?_, ?_⟩
    · refine mem_reassignSmall_of_mem target sid labels 0 _ ?_ ?_
      · refine hsurj _ ?_
        split_ifs <;> omega
      · split_ifs <;> omega
    · split_ifs <;> omega

/-- C1: merging distinct clusters `a` and `b` of a full `[0, n + 1)`
labeling with `n_clusters_current = n` relabels pointwise as specified
(merged points to `n - 1`, labels above both down by 2, labels strictly
between down by 1, labels below both unchanged), keeps every sample, and
the result occupies exactly the label range `[0, n)`. -/
theorem merge_relabel_correct (a b n : ℕ) (labels : List ℕ)
    (hab : a ≠ b) (ha : a < n + 1) (hb : b < n + 1)
    (hlt : ∀ l ∈ labels, l < n + 1) (hocc : ∀ k < n + 1, k ∈ labels) :
    (∀ l ∈ labels,
      ((l = a ∨ l = b) → mergeRelabel a b n l = n - 1) ∧
      ((l < a ∧ l < b) → mergeRelabel a b n l = l) ∧
      ((a < l ∧ b < l) → mergeRelabel a b n l = l - 2) ∧
      (l ≠ a → l ≠ b → min a b < l → l < max a b → mergeRelabel a b n l = l - 1)) ∧
    (∀ m ∈ mergeLabels a b n labels, m < n) ∧
    (∀ k < n, k ∈ mergeLabels a b n labels) ∧
    (mergeLabels a b n labels).length = labels.length := by
  have hcont := mergeLabels_contiguous a b n labels hab ha hb ⟨hlt, hocc⟩
  refine ⟨?_, hcont.1, hcont.2, List.length_map labels _⟩
  intro l hl
  refine ⟨?_, ?_, ?_, ?_⟩ <;>
    · intros; unfold mergeRelabel; split_ifs <;> omega

theorem merge_relabel_correct_witness :
    ((0 : ℕ) ≠ 1 ∧ 0 < 2 + 1 ∧ 1 < 2 + 1 ∧ (∀ l ∈ [0, 1, 2], l < 2 + 1) ∧
      (∀ k < 2 + 1, k ∈ [0, 1, 2])) ∧
    ((∀ l ∈ [0, 1, 2],
      ((l = 0 ∨ l = 1) → mergeRelabel 0 1 2 l = 2 - 1) ∧
      ((l < 0 ∧ l < 1) → mergeRelabel 0 1 2 l = l) ∧
      ((0 < l ∧ 1 < l) → mergeRelabel 0 1 2 l = l - 2) ∧
      (l ≠ 0 → l ≠ 1 → min 0 1 < l → l < max 0 1 → mergeRelabel 0 1 2 l = l - 1)) ∧
    (∀ m ∈ mergeLabels 0 1 2 [0, 1, 2], m < 2) ∧
    (∀ k < 2, k ∈ mergeLabels 0 1 2 [0, 1, 2]) ∧
    (mergeLabels 0 1 2 [0, 1, 2]).length = [0, 1, 2].length) :=
  ⟨⟨by decide, by decide, by decide, by decide, by decide⟩,
   merge_relabel_correct 0 1 2 [0, 1, 2] (by decide) (by decide) (by decide)
     (by decide) (by decide)⟩

/-- C5 counterexample: the per-epoch nearest-center reassignment
(dipdeck.py:235, `assignLabels` here) can leave a cluster empty.  With two
identical centers (both equal to sample 0, possible since centers are
snapped to real samples) every sample gets label 0, so with
`n_clusters_current = 2` the label range `[0, 2)` has a gap at 1 — the
claimed invariant fails at this point of the run. -/
theorem labels_contiguity_counterexample :
    assignLabels [[0], [0]] [[0], [1]] = [0, 0] ∧
      ¬ contiguousLabels 2 (assignLabels [[0], [0]] [[0], [1]]) := by
  have h : assignLabels [[0], [0]] [[0], [1]] = [0, 0] := by
    norm_num [assignLabels, idxOfMinQ, sqDist, vsub]
  refine ⟨h, ?_⟩
  rw [h]
  decide

/-- C5 amended: the relabeling logic of merges and forced removals does
preserve the contiguous-range invariant (given occupied reassignment
targets among the survivors, as the infinity-row argmin guarantees), and
the per-epoch nearest-center reassignment keeps labels inside
`[0, n_clusters_current)`; but that reassignment does not guarantee the
absence of gaps. -/
theorem labels_contiguity_amended (a b sid n : ℕ) (labels : List ℕ) (target : ℕ → ℕ)
    (embCenters embData : List (List ℚ))
    (hab : a ≠ b) (ha : a < n + 1) (hb : b < n + 1)
    (hsid : sid < n + 1) (hn : 1 ≤ n)
    (htar : ∀ j, target j < n + 1 ∧ target j ≠ sid)
    (hc : contiguousLabels (n + 1) labels) (hcent : embCenters ≠ []) :
    contiguousLabels n (mergeLabels a b n labels) ∧
    contiguousLabels n (removeRelabel target sid labels) ∧
    ∀ m ∈ assignLabels embCenters embData, m < embCenters.length := by
  refine ⟨mergeLabels_contiguous a b n labels hab ha hb hc,
    removeRelabel_contiguous target sid n labels hsid hn htar hc, ?_⟩
  intro m hm
  rw [assignLabels, List.mem_map] at hm
  obtain ⟨x, hx, rfl⟩ := hm
  have hne : embCenters.map (fun c => sqDist c x) ≠ [] := by
    simpa using hcent
  have := idxOfMinQ_lt_length _ hne
  simpa using this

theorem labels_contiguity_amended_witness :
    ((0 : ℕ) ≠ 1 ∧ 0 < 2 + 1 ∧ 1 < 2 + 1 ∧ (1 : ℕ) < 2 + 1 ∧ (1 : ℕ) ≤ 2 ∧
      (∀ j : ℕ, (0 : ℕ) < 2 + 1 ∧ (0 : ℕ) ≠ 1) ∧
      contiguousLabels (2 + 1) [0, 1, 2] ∧ ([[(0 : ℚ)]] : List (List ℚ)) ≠ []) ∧
    (contiguousLabels 2 (mergeLabels 0 1 2 [0, 1, 2]) ∧
     contiguousLabels 2 (removeRelabel (fun _ => 0) 1 [0, 1, 2]) ∧
     ∀ m ∈ assignLabels [[(0 : ℚ)]] [[(5 : ℚ)]], m < ([[(0 : ℚ)]] : List (List ℚ)).length) := by
  constructor
  · refine ⟨by omega, by omega, by omega, by omega, by omega, ?_, by decide, by simp⟩
    intro j
    exact ⟨by omega, by omega⟩
  · exact labels_contiguity_amended 0 1 1 2 [0, 1, 2] (fun _ => 0) [[(0 : ℚ)]] [[(5 : ℚ)]]
      (by omega) (by omega) (by omega) (by omega) (by omega)
      (fun j => ⟨by simp, by simp⟩) (by decide) (by simp)

/-- C8: `_dip_deck` rejects a configuration, before any training starts,
exactly when one of the four documented conditions holds
(dipdeck.py:78-85). -/
theorem config_validation_iff (nStart nMax nMin : ℤ) (thr : ℚ) :
    validateConfig nStart nMax nMin thr ≠ none ↔
      (nMax < nMin ∨ nMin ≤ 0 ∨ nStart < nMin ∨ thr < 0 ∨ 1 < thr) := by
  unfold validateConfig
  split_ifs <;> simp_all

/-- C9: with a non-negative size factor, `_get_nearest_points` fails
exactly when the floor branch is not taken and the slice bound
`size_smaller_cluster * max_cluster_size_diff_factor` is not an integer
(numpy rejects a float slice bound); hence the imbalance subsampler needs
the product to be integral. -/
theorem nearest_points_requires_integral (pts : List (List ℚ)) (center : List ℚ)
    (s : ℕ) (tau : ℚ) (f : ℕ) (htau : 0 ≤ tau) :
    getNearestPoints pts center s tau f = none ↔
      ¬ ((s : ℚ) + (s : ℚ) * tau < (f : ℚ)) ∧ ((s : ℚ) * tau).den ≠ 1 := by
  have hnum : 0 ≤ ((s : ℚ) * tau).num := by
    have : (0 : ℚ) ≤ (s : ℚ) * tau := mul_nonneg (by positivity) htau
    exact Rat.num_nonneg.mpr this
  rw [getNearestPoints, targetCount]
  split_ifs with h1 h2 <;> simp_all

theorem nearest_points_requires_integral_witness :
    ((0 : ℚ) ≤ 1 / 3) ∧
    (getNearestPoints [[(0 : ℚ)]] [0] 100 (1 / 3) 50 = none ↔
      ¬ ((100 : ℚ) + (100 : ℚ) * (1 / 3) < (50 : ℚ)) ∧
        (((100 : ℚ) * (1 / 3)).den ≠ 1)) :=
  ⟨by norm_num,
   nearest_points_requires_integral [[(0 : ℚ)]] [0] 100 (1 / 3) 50 (by norm_num)⟩

/-- C10: the merged-center computation of `_merge_by_dip_value`
(dipdeck.py:361-363) divides by the total point count of the two merged
clusters; that divisor vanishes exactly when both clusters are empty, and
whenever it does not vanish the produced coordinates satisfy the defining
size-weighted-average equation. -/
theorem merge_center_denominator (labels : List ℕ) (a b : ℕ) (embCenters : List (List ℚ)) :
    (mergeCenterDenom labels a b = 0 ↔ countLabel labels a = 0 ∧ countLabel labels b = 0) ∧
    (mergeCenterDenom labels a b ≠ 0 →
      ∀ k, k < (mergedOptimalCenter embCenters labels a b).length →
        mergeCenterDenom labels a b * (mergedOptimalCenter embCenters labels a b).getD k 0 =
          ((embCenters.getD a []).getD k 0) * (countLabel labels a : ℚ) +
          ((embCenters.getD b []).getD k 0) * (countLabel labels b : ℚ)) := by
  constructor
  · rw [mergeCenterDenom, ← Nat.cast_add, Nat.cast_eq_zero]
    omega
  · intro hden k hk
    rw [mergedOptimalCenter, List.length_zipWith] at hk
    have hk1 : k < (embCenters.getD a []).length := lt_of_lt_of_le hk (min_le_left _ _)
    have hk2 : k < (embCenters.getD b []).length := lt_of_lt_of_le hk (min_le_right _ _)
    rw [mergedOptimalCenter, List.getD_eq_getElem _ _ (by rw [List.length_zipWith]; exact hk),
      List.getElem_zipWith, List.getD_eq_getElem _ _ hk1, List.getD_eq_getElem _ _ hk2]
    field_simp

/-- A 41-point larger cluster on a line, used to exercise the truncation
of the sorted index array. -/
def cexPts : List (List ℚ) := (List.range 41).map (fun k : ℕ => [(k : ℚ)])

/-- C6 counterexample: with 41 available points, smaller size 40, factor 2
and floor 50 the non-floor branch computes target count 80, but the slice
returns only the 41 available points — not "exactly that many". -/
theorem nearest_points_count_counterexample :
    (getNearestPoints cexPts [0] 40 2 50).map List.length = some 41 ∧ (41 : ℕ) ≠ 80 := by
  have hl : cexPts.length = 41 := rfl
  have h : targetCount cexPts.length 40 2 50 = some 80 := by
    rw [hl, targetCount]
    norm_num
    decide
  have hlen := getNearestPoints_length cexPts [0] 40 2 50 80 h
  rw [hl] at hlen
  exact ⟨by rw [hlen]; norm_num, by decide⟩

/-- C6 amended: whenever the slice bound is well defined (`targetCount`
returns `c`), `_get_nearest_points` returns `min c (available points)`
points — the target count truncated to availability — and they are the
nearest points of the larger cluster to the smaller cluster's center
(every selected point at most as far as every rejected one), listed in
order of increasing distance. -/
theorem nearest_points_spec (pts : List (List ℚ)) (center : List ℚ) (s : ℕ) (tau : ℚ)
    (f c : ℕ) (hc : targetCount pts.length s tau f = some c) :
    ∃ sel rest : List ℕ,
      getNearestPoints pts center s tau f = some (sel.map (fun idx => pts.getD idx [])) ∧
      (sel ++ rest).Perm (List.range pts.length) ∧
      sel.length = min c pts.length ∧
      sel.Pairwise (fun i j => sqDist (pts.getD i []) center ≤ sqDist (pts.getD j []) center) ∧
      (∀ i ∈ sel, ∀ j ∈ rest,
        sqDist (pts.getD i []) center ≤ sqDist (pts.getD j []) center) := by
  have htrans : ∀ a b c' : ℕ,
      decide (sqDist (pts.getD a []) center ≤ sqDist (pts.getD b []) center) = true →
      decide (sqDist (pts.getD b []) center ≤ sqDist (pts.getD c' []) center) = true →
      decide (sqDist (pts.getD a []) center ≤ sqDist (pts.getD c' []) center) = true := by
    intro a b c' h1 h2
    simp only [decide_eq_true_eq] at h1 h2 ⊢
    exact le_trans h1 h2
  have htotal : ∀ a b : ℕ,
      (decide (sqDist (pts.getD a []) center ≤ sqDist (pts.getD b []) center) ||
       decide (sqDist (pts.getD b []) center ≤ sqDist (pts.getD a []) center)) = true := by
    intro a b
    simp only [Bool.or_eq_true, decide_eq_true_eq]
    exact le_total _ _
  have hsorted := List.sorted_mergeSort htrans htotal (List.range pts.length)
  have hsortedP : ((List.range pts.length).mergeSort
      (fun a b => decide (sqDist (pts.getD a []) center ≤ sqDist (pts.getD b []) center))).Pairwise
      (fun i j => sqDist (pts.getD i []) center ≤ sqDist (pts.getD j []) center) :=
    hsorted.imp (fun h => of_decide_eq_true h)
  refine ⟨(((List.range pts.length).mergeSort
      (fun a b => decide (sqDist (pts.getD a []) center ≤ sqDist (pts.getD b []) center))).take c),
    (((List.range pts.length).mergeSort
      (fun a b => decide (sqDist (pts.getD a []) center ≤ sqDist (pts.getD b []) center))).drop c),
    ?_, ?_, ?_, ?_, ?_⟩
  · rw [getNearestPoints, hc]
    rfl
  · rw [List.take_append_drop]
    exact List.mergeSort_perm _ _
  · rw [List.length_take, List.length_mergeSort, List.length_range]
  · exact hsortedP.sublist (List.take_sublist c _)
  · have h2 := hsortedP
    rw [← List.take_append_drop c ((List.range pts.length).mergeSort
      (fun a b => decide (sqDist (pts.getD a []) center ≤ sqDist (pts.getD b []) center)))] at h2
    exact (List.pairwise_append.mp h2).2.2

theorem nearest_points_spec_witness :
    (targetCount ([[(0 : ℚ)], [3], [1]] : List (List ℚ)).length 25 1 50 = some 25) ∧
    (∃ sel rest : List ℕ,
      getNearestPoints [[(0 : ℚ)], [3], [1]] [0] 25 1 50 =
        some (sel.map (fun idx => ([[(0 : ℚ)], [3], [1]] : List (List ℚ)).getD idx [])) ∧
      (sel ++ rest).Perm (List.range ([[(0 : ℚ)], [3], [1]] : List (List ℚ)).length) ∧
      sel.length = min 25 ([[(0 : ℚ)], [3], [1]] : List (List ℚ)).length ∧
      sel.Pairwise (fun i j =>
        sqDist (([[(0 : ℚ)], [3], [1]] : List (List ℚ)).getD i []) [0] ≤
        sqDist (([[(0 : ℚ)], [3], [1]] : List (List ℚ)).getD j []) [0]) ∧
      (∀ i ∈ sel, ∀ j ∈ rest,
        sqDist (([[(0 : ℚ)], [3], [1]] : List (List ℚ)).getD i []) [0] ≤
        sqDist (([[(0 : ℚ)], [3], [1]] : List (List ℚ)).getD j []) [0])) := by
  have hc : targetCount ([[(0 : ℚ)], [3], [1]] : List (List ℚ)).length 25 1 50 = some 25 := by
    rw [targetCount]
    norm_num
    decide
  exact ⟨hc, nearest_points_spec [[(0 : ℚ)], [3], [1]] [0] 25 1 50 25 hc⟩

/-- The 1000-point larger cluster of the C7 scenario. -/
def bigPts : List (List ℚ) := (List.range 1000).map (fun k : ℕ => [(k : ℚ)])

/-- C7 counterexample: in the scenario of a 1000-point larger cluster and
a 10-point smaller one with factor 2, the minimum-sample floor of 50
applies (10 + 20 < 50), so the larger cluster is truncated to
`min(50 - 10, 1000) = 40` points — not to at most 20. -/
theorem subsample_floor_counterexample :
    (getNearestPoints bigPts [2000] 10 2 50).map List.length = some 40 ∧ ¬ (40 ≤ 20) := by
  have hl : bigPts.length = 1000 := by
    simp only [bigPts]
    rw [List.length_map, List.length_range]
  have h : targetCount bigPts.length 10 2 50 = some 40 := by
    rw [hl, targetCount]
    norm_num
  have hlen := getNearestPoints_length bigPts [2000] 10 2 50 40 h
  rw [hl] at hlen
  exact ⟨by rw [hlen]; norm_num, by decide⟩

/-- Dip p-value of a point set projected onto an axis
(dipdeck.py:472-474 and 485-487): the external `dip_test` on the scalar
projections, fed with the projection count to the external table-based
`dip_pval`. -/
def projPval (dipTest : List ℚ → ℚ) (dipPv : ℚ → ℕ → ℚ)
    (pts : List (List ℚ)) (ax : List ℚ) : ℚ :=
  let proj := pts.map (fun x => dot x ax)
  dipPv (dipTest proj) proj.length

/-- One entry computation of `_get_dip_matrix` (dipdeck.py:468-488) for
the pair `(i, j)`: p-value of the joint projection onto the axis between
the two centers; when the sizes differ by more than the factor `tau` the
larger cluster is subsampled with `_get_nearest_points` and the minimum
of the two p-values is kept (`none` propagates the subsampler's numpy
failure). -/
def pairPval (dipTest : List ℚ → ℚ) (dipPv : ℚ → ℕ → ℚ) (data : List (List ℚ))
    (labels : List ℕ) (centers : List (List ℚ)) (tau : ℚ) (i j : ℕ) : Option ℚ :=
  let ax := vsub (centers.getD i []) (centers.getD j [])
  let ptsI := pointsIn data labels i
  let ptsJ := pointsIn data labels j
  let p := projPval dipTest dipPv (ptsI ++ ptsJ) ax
  if (ptsI.length : ℚ) > (ptsJ.length : ℚ) * tau ∨
      (ptsJ.length : ℚ) > (ptsI.length : ℚ) * tau then
    if (ptsI.length : ℚ) > (ptsJ.length : ℚ) * tau then
      (getNearestPoints ptsI (centers.getD j []) ptsJ.length tau 50).map
        (fun sub => min p (projPval dipTest dipPv (sub ++ ptsJ) ax))
    else
      (getNearestPoints ptsJ (centers.getD i []) ptsI.length tau 50).map
        (fun sub => min p (projPval dipTest dipPv (ptsI ++ sub) ax))
  else some p

/-- Symmetric store `dip_matrix[i][j] = v; dip_matrix[j][i] = v`
(dipdeck.py:490-491) on a matrix represented as a function. -/
def setSym (M : ℕ → ℕ → ℚ) (i j : ℕ) (v : ℚ) : ℕ → ℕ → ℚ :=
  fun a b => if (a = i ∧ b = j) ∨ (a = j ∧ b = i) then v else M a b

/-- The index pairs visited by the double loop of `_get_dip_matrix`
(dipdeck.py:466-467): `for i in range(0, n - 1)` and `for j in
range(i + 1, n)` visit exactly the pairs `(i, j)` with `i < j < n`, in
row-major order (the outer bound `n - 1` versus `n` is immaterial: the
inner list is empty for `i = n - 1`). -/
def allPairs (n : ℕ) : List (ℕ × ℕ) :=
  (List.range n).flatMap
    (fun i => ((List.range n).filter (fun j => decide (i < j))).map (fun j => (i, j)))

/-- The dip matrix of `_get_dip_matrix` (dipdeck.py:464-492): the zero
matrix with every visited pair's p-value stored symmetrically, or `none`
as soon as one pair's computation fails. -/
def dipMatrixOpt (dipTest : List ℚ → ℚ) (dipPv : ℚ → ℕ → ℚ) (data : List (List ℚ))
    (labels : List ℕ) (centers : List (List ℚ)) (tau : ℚ) (n : ℕ) :
    Option (ℕ → ℕ → ℚ) :=
  (allPairs n).foldlM
    (fun M p => (pairPval dipTest dipPv data labels centers tau p.1 p.2).map
      (fun v => setSym M p.1 p.2 v))
    (fun _ _ => 0)

theorem mem_allPairs (n a b : ℕ) : (a, b) ∈ allPairs n ↔ a < b ∧ b < n := by
  simp only [allPairs, List.mem_flatMap, List.mem_map, List.mem_filter, List.mem_range,
    decide_eq_true_eq, Prod.mk.injEq]
  constructor
  · rintro ⟨i, hi, j, ⟨hj, hij⟩, rfl, rfl⟩
    exact ⟨hij, hj⟩
  · rintro ⟨h1, h2⟩
    exact ⟨a, lt_trans h1 h2, b, ⟨h2, h1⟩, rfl, rfl⟩

theorem allPairs_fst_lt_snd (n : ℕ) : ∀ p ∈ allPairs n, p.1 < p.2 := by
  rintro ⟨a, b⟩ hp
  exact ((mem_allPairs n a b).mp hp).1

/-- Folding symmetric stores over any pair list preserves matrix
symmetry. -/
theorem foldlM_setSym_symm (val : ℕ → ℕ → Option ℚ) (L : List (ℕ × ℕ)) :
    ∀ M0 M : ℕ → ℕ → ℚ, (∀ x y, M0 x y = M0 y x) →
    L.foldlM (fun M p => (val p.1 p.2).map (fun v => setSym M p.1 p.2 v)) M0 = some M →
    ∀ x y, M x y = M y x := by
  induction L with
  | nil =>
    intro M0 M h0 hM x y
    simp only [List.foldlM_nil, pure, Option.some.injEq] at hM
    rw [← hM]; exact h0 x y
  | cons p L ih =>
    intro M0 M h0 hM x y
    rw [List.foldlM_cons] at hM
    cases hv : val p.1 p.2 with
    | none => rw [hv] at hM; simp at hM
    | some v =>
      rw [hv] at hM
      simp only [Option.map_some', Option.some_bind] at hM
      refine ih (setSym M0 p.1 p.2 v) M ?_ hM x y
      intro x' y'
      unfold setSym
      split_ifs with h1 h2 h2 <;> first | rfl | tauto | exact h0 x' y'

/-- Folding stores at off-diagonal pairs never touches the diagonal. -/
theorem foldlM_setSym_diag (val : ℕ → ℕ → Option ℚ) (L : List (ℕ × ℕ)) :
    ∀ M0 M : ℕ → ℕ → ℚ, (∀ p ∈ L, p.1 ≠ p.2) →
    L.foldlM (fun M p => (val p.1 p.2).map (fun v => setSym M p.1 p.2 v)) M0 = some M →
    ∀ x, M x x = M0 x x := by
  induction L with
  | nil =>
    intro M0 M _ hM x
    simp only [List.foldlM_nil, pure, Option.some.injEq] at hM
    rw [← hM]
  | cons p L ih =>
    intro M0 M hL hM x
    rw [List.foldlM_cons] at hM
    cases hv : val p.1 p.2 with
    | none => rw [hv] at hM; simp at hM
    | some v =>
      rw [hv] at hM
      simp only [Option.map_some', Option.some_bind] at hM
      have hp := hL p (List.mem_cons_self p L)
      have := ih (setSym M0 p.1 p.2 v) M (fun q hq => hL q (List.mem_cons_of_mem p hq)) hM x
      rw [this]
      unfold setSym
      split_ifs with h1
      · exfalso; rcases h1 with ⟨h2, h3⟩ | ⟨h2, h3⟩ <;> exact hp (by omega)
      · rfl

/-- An entry never written by the fold keeps its initial value. -/
theorem foldlM_setSym_of_not_mem (val : ℕ → ℕ → Option ℚ) (L : List (ℕ × ℕ)) :
    ∀ M0 M : ℕ → ℕ → ℚ, (∀ p ∈ L, p.1 < p.2) → ∀ x y : ℕ, x < y → (x, y) ∉ L →
    L.foldlM (fun M p => (val p.1 p.2).map (fun v => setSym M p.1 p.2 v)) M0 = some M →
    M x y = M0 x y := by
  induction L with
  | nil =>
    intro M0 M _ x y _ _ hM
    simp only [List.foldlM_nil, pure, Option.some.injEq] at hM
    rw [← hM]
  | cons p L ih =>
    intro M0 M hL x y hxy hmem hM
    rw [List.foldlM_cons] at hM
    cases hv : val p.1 p.2 with
    | none => rw [hv] at hM; simp at hM
    | some v =>
      rw [hv] at hM
      simp only [Option.map_some', Option.some_bind] at hM
      have hlt := hL p (List.mem_cons_self p L)
      have hrec := ih (setSym M0 p.1 p.2 v) M
        (fun q hq => hL q (List.mem_cons_of_mem p hq)) x y hxy
        (fun hc => hmem (List.mem_cons_of_mem p hc)) hM
      rw [hrec]
      unfold setSym
      split_ifs with h1
      · exfalso
        rcases h1 with ⟨rfl, rfl⟩ | ⟨rfl, rfl⟩
        · exact hmem (List.mem_cons_self _ _)
        · omega
      · rfl

/-- An entry written by the fold holds the value of its pair's
computation (unordered pairs occur with a fixed orientation, so repeated
writes agree). -/
theorem foldlM_setSym_of_mem (val : ℕ → ℕ → Option ℚ) (L : List (ℕ × ℕ)) :
    ∀ M0 M : ℕ → ℕ → ℚ, (∀ p ∈ L, p.1 < p.2) → ∀ x y : ℕ, x < y → (x, y) ∈ L →
    L.foldlM (fun M p => (val p.1 p.2).map (fun v => setSym M p.1 p.2 v)) M0 = some M →
    val x y = some (M x y) := by
  induction L with
  | nil =>
    intro M0 M _ x y _ hmem
    simp at hmem
  | cons p L ih =>
    intro M0 M hL x y hxy hmem hM
    rw [List.foldlM_cons] at hM
    cases hv : val p.1 p.2 with
    | none => rw [hv] at hM; simp at hM
    | some v =>
      rw [hv] at hM
      simp only [Option.map_some', Option.some_bind] at hM
      by_cases hp : p = (x, y)
      · subst hp
        by_cases hrest : (x, y) ∈ L
        · exact ih _ M (fun q hq => hL q (List.mem_cons_of_mem _ hq)) x y hxy hrest hM
        · have := foldlM_setSym_of_not_mem val L _ M
            (fun q hq => hL q (List.mem_cons_of_mem _ hq)) x y hxy hrest hM
          rw [hv, this]
          unfold setSym
          simp
      · have hmem' : (x, y) ∈ L := by
          rcases List.mem_cons.mp hmem with h | h
          · exact absurd h.symm hp
          · exact h
        exact ih _ M (fun q hq => hL q (List.mem_cons_of_mem _ hq)) x y hxy hmem' hM

/-- Every successful `pairPval` lies in `[0, 1]` whenever the external
`dip_pval` does. -/
theorem pairPval_bounds (dipTest : List ℚ → ℚ) (dipPv : ℚ → ℕ → ℚ)
    (data : List (List ℚ)) (labels : List ℕ) (centers : List (List ℚ)) (tau : ℚ)
    (i j : ℕ) (v : ℚ) (hp : ∀ d m, 0 ≤ dipPv d m ∧ dipPv d m ≤ 1)
    (h : pairPval dipTest dipPv data labels centers tau i j = some v) :
    0 ≤ v ∧ v ≤ 1 := by
  have hb : ∀ pts ax, 0 ≤ projPval dipTest dipPv pts ax ∧
      projPval dipTest dipPv pts ax ≤ 1 := fun pts ax => hp _ _
  simp only [pairPval] at h
  split_ifs at h with h1 h2
  · rcases Option.map_eq_some'.mp h with ⟨sub, _, rfl⟩
    constructor
    · exact le_min (hb _ _).1 (hb _ _).1
    · exact le_trans (min_le_left _ _) (hb _ _).2
  · rcases Option.map_eq_some'.mp h with ⟨sub, _, rfl⟩
    constructor
    · exact le_min (hb _ _).1 (hb _ _).1
    · exact le_trans (min_le_left _ _) (hb _ _).2
  · rcases Option.some.injEq _ _ ▸ h with rfl
    exact hb _ _

/-- C2: any matrix `_get_dip_matrix` returns is symmetric and has zero
diagonal, and — whenever the external dip p-value function ranges in
`[0, 1]` — every off-diagonal entry within the cluster count lies in
`[0, 1]` (stated for all `n`, hence for every `n_clusters ≥ 2`). -/
theorem dip_matrix_props (dipTest : List ℚ → ℚ) (dipPv : ℚ → ℕ → ℚ)
    (data : List (List ℚ)) (labels : List ℕ) (centers : List (List ℚ)) (tau : ℚ)
    (n : ℕ) (M : ℕ → ℕ → ℚ) (i j : ℕ)
    (hp : ∀ d m, 0 ≤ dipPv d m ∧ dipPv d m ≤ 1)
    (hM : dipMatrixOpt dipTest dipPv data labels centers tau n = some M) :
    M i j = M j i ∧ M i i = 0 ∧
      (i < n → j < n → i ≠ j → 0 ≤ M i j ∧ M i j ≤ 1) := by
  rw [dipMatrixOpt] at hM
  have hsym := foldlM_setSym_symm (pairPval dipTest dipPv data labels centers tau)
    (allPairs n) (fun _ _ => 0) M (fun _ _ => rfl) hM
  refine ⟨hsym i j, ?_, ?_⟩
  · exact foldlM_setSym_diag (pairPval dipTest dipPv data labels centers tau)
      (allPairs n) (fun _ _ => 0) M
      (fun p hp' => Nat.ne_of_lt (allPairs_fst_lt_snd n p hp')) hM i
  · intro hi hj hij
    rcases Nat.lt_or_ge i j with hlt | hge
    · have hmem := (mem_allPairs n i j).mpr ⟨hlt, hj⟩
      have hval := foldlM_setSym_of_mem (pairPval dipTest dipPv data labels centers tau)
        (allPairs n) (fun _ _ => 0) M (allPairs_fst_lt_snd n) i j hlt hmem hM
      exact pairPval_bounds dipTest dipPv data labels centers tau i j (M i j) hp hval
    · have hlt : j < i := lt_of_le_of_ne hge (Ne.symm hij)
      have hmem := (mem_allPairs n j i).mpr ⟨hlt, hi⟩
      have hval := foldlM_setSym_of_mem (pairPval dipTest dipPv data labels centers tau)
        (allPairs n) (fun _ _ => 0) M (allPairs_fst_lt_snd n) j i hlt hmem hM
      rw [hsym i j]
      exact pairPval_bounds dipTest dipPv data labels centers tau j i (M j i) hp hval

/-- A constant table returning p-value 1/2, standing in for the external
`dip_pval` collaborator in concrete instances. -/
def halfPv : ℚ → ℕ → ℚ := fun _ _ => 1 / 2

/-- A constant dip statistic, standing in for the external `dip_test`
collaborator in concrete instances. -/
def zeroDip : List ℚ → ℚ := fun _ => 0

theorem dip_matrix_props_witness :
    ((∀ d m, 0 ≤ halfPv d m ∧ halfPv d m ≤ 1) ∧
      dipMatrixOpt zeroDip halfPv [[(0 : ℚ)], [1]] [0, 1] [[(0 : ℚ)], [1]] 2 2 =
        some (setSym (fun _ _ => 0) 0 1 (1 / 2))) ∧
    (setSym (fun _ _ => 0) 0 1 (1 / 2) 0 1 = setSym (fun _ _ => 0) 0 1 (1 / 2) 1 0 ∧
      setSym (fun _ _ => 0) 0 1 (1 / 2) 0 0 = 0 ∧
      (0 < 2 → 1 < 2 → (0 : ℕ) ≠ 1 →
        0 ≤ setSym (fun _ _ => 0) 0 1 (1 / 2) 0 1 ∧
          setSym (fun _ _ => 0) 0 1 (1 / 2) 0 1 ≤ 1)) := by
  have hp : ∀ d m : ℚ, ∀ m' : ℕ, True := fun _ _ _ => trivial
  have hpv : ∀ d m, 0 ≤ halfPv d m ∧ halfPv d m ≤ 1 := by
    intro d m
    constructor <;> norm_num [halfPv]
  have hI : pointsIn [[(0 : ℚ)], [1]] [0, 1] 0 = [[0]] := rfl
  have hJ : pointsIn [[(0 : ℚ)], [1]] [0, 1] 1 = [[1]] := rfl
  have hpair : pairPval zeroDip halfPv [[(0 : ℚ)], [1]] [0, 1] [[(0 : ℚ)], [1]] 2 0 1 =
      some (1 / 2) := by
    simp only [pairPval, hI, hJ, projPval, halfPv]
    norm_num
  have hAP : allPairs 2 = [(0, 1)] := by decide
  have hM : dipMatrixOpt zeroDip halfPv [[(0 : ℚ)], [1]] [0, 1] [[(0 : ℚ)], [1]] 2 2 =
      some (setSym (fun _ _ => 0) 0 1 (1 / 2)) := by
    rw [dipMatrixOpt, hAP]
    simp only [List.foldlM_cons, List.foldlM_nil, hpair, Option.map_some', Option.some_bind]
    rfl
  exact ⟨⟨hpv, hM⟩,
    dip_matrix_props zeroDip halfPv [[(0 : ℚ)], [1]] [0, 1] [[(0 : ℚ)], [1]] 2 2
      (setSym (fun _ _ => 0) 0 1 (1 / 2)) 0 1 hpv hM⟩

/-- C7 amended: in the 1000-versus-10 scenario with factor 2 the
minimum-sample floor of 50 applies, so the larger cluster is truncated to
`min(50 - 10, 1000) = 40` distance-nearest points (not at most 20) before
the dip recomputation, and the pair's stored p-value is the minimum of
the full and the subsampled p-values. -/
theorem subsample_scenario_amended (dipTest : List ℚ → ℚ) (dipPv : ℚ → ℕ → ℚ)
    (data : List (List ℚ)) (labels : List ℕ) (centers : List (List ℚ))
    (hI : (pointsIn data labels 0).length = 1000)
    (hJ : (pointsIn data labels 1).length = 10) :
    ∃ sub : List (List ℚ),
      getNearestPoints (pointsIn data labels 0) (centers.getD 1 []) 10 2 50 = some sub ∧
      sub.length = 40 ∧
      pairPval dipTest dipPv data labels centers 2 0 1 = some (min
        (projPval dipTest dipPv (pointsIn data labels 0 ++ pointsIn data labels 1)
          (vsub (centers.getD 0 []) (centers.getD 1 [])))
        (projPval dipTest dipPv (sub ++ pointsIn data labels 1)
          (vsub (centers.getD 0 []) (centers.getD 1 [])))) := by
  have htc : targetCount (pointsIn data labels 0).length 10 2 50 = some 40 := by
    rw [hI, targetCount]
    norm_num
  obtain ⟨sub, hsub⟩ : ∃ sub,
      getNearestPoints (pointsIn data labels 0) (centers.getD 1 []) 10 2 50 = some sub := by
    rw [getNearestPoints, htc]
    exact ⟨_, rfl⟩
  refine ⟨sub, hsub, ?_, ?_⟩
  · have hlen := getNearestPoints_length (pointsIn data labels 0) (centers.getD 1 [])
      10 2 50 40 htc
    rw [hsub] at hlen
    simp only [Option.map_some', Option.some.injEq] at hlen
    rw [hlen, hI]
    decide
  · simp only [pairPval]
    rw [hI, hJ, hsub]
    rw [if_pos (by norm_num : ((1000 : ℕ) : ℚ) > ((10 : ℕ) : ℚ) * 2 ∨
        ((10 : ℕ) : ℚ) > ((1000 : ℕ) : ℚ) * 2),
      if_pos (by norm_num : ((1000 : ℕ) : ℚ) > ((10 : ℕ) : ℚ) * 2)]
    rfl

/-- The 10-point smaller cluster of the C7 scenario. -/
def smallPts : List (List ℚ) := (List.range 10).map (fun k : ℕ => [(k : ℚ) + 2000])

/-- Embedded data of the C7 scenario: 1000 points then 10 points. -/
def c7data : List (List ℚ) := bigPts ++ smallPts

/-- Labels of the C7 scenario: cluster 0 has 1000 members, cluster 1 has
10. -/
def c7labels : List ℕ := List.replicate 1000 0 ++ List.replicate 10 1

/-- Embedded centers of the C7 scenario. -/
def c7centers : List (List ℚ) := [[0], [2000]]

set_option maxRecDepth 40000 in
theorem subsample_scenario_amended_witness :
    ((pointsIn c7data c7labels 0).length = 1000 ∧
      (pointsIn c7data c7labels 1).length = 10) ∧
    (∃ sub : List (List ℚ),
      getNearestPoints (pointsIn c7data c7labels 0) (c7centers.getD 1 []) 10 2 50 =
        some sub ∧
      sub.length = 40 ∧
      pairPval zeroDip halfPv c7data c7labels c7centers 2 0 1 = some (min
        (projPval zeroDip halfPv (pointsIn c7data c7labels 0 ++ pointsIn c7data c7labels 1)
          (vsub (c7centers.getD 0 []) (c7centers.getD 1 [])))
        (projPval zeroDip halfPv (sub ++ pointsIn c7data c7labels 1)
          (vsub (c7centers.getD 0 []) (c7centers.getD 1 []))))) := by
  have hI : (pointsIn c7data c7labels 0).length = 1000 := by decide
  have hJ : (pointsIn c7data c7labels 1).length = 10 := by decide
  exact ⟨⟨hI, hJ⟩,
    subsample_scenario_amended zeroDip halfPv c7data c7labels c7centers hI hJ⟩

/-- Row-major first-occurrence argmax over the `n × n` dip matrix
(`np.unravel_index(np.argmax(dip_matrix, axis=None), dip_matrix.shape)`,
dipdeck.py:252/266): the first pair attaining the maximal entry, found by
a keep-first fold over all index pairs. -/
def argmaxPair (M : ℕ → ℕ → ℚ) (n : ℕ) : ℕ × ℕ :=
  ((List.range n).flatMap (fun i => (List.range n).map (fun j => (i, j)))).foldl
    (fun best p => if M best.1 best.2 < M p.1 p.2 then p else best) (0, 0)

/-- Sorted distinct label values paired with their multiplicities
(`np.unique(cluster_labels_cpu, return_counts=True)`, dipdeck.py:270). -/
def uniqueCounts (labels : List ℕ) : List (ℕ × ℕ) :=
  (labels.dedup.mergeSort (fun a b => decide (a ≤ b))).map (fun v => (v, labels.count v))

/-- Mean of a count vector as a rational (`np.mean(cluster_sizes)`,
dipdeck.py:276; 0 on an empty list, where numpy would yield NaN). -/
def meanN (xs : List ℕ) : ℚ := (xs.map (fun x => (x : ℚ))).sum / (xs.length : ℚ)

/-- The configuration of the training loop `_dip_deck_training`:
epoch budget, merge threshold and the cluster-count bounds. -/
structure Config where
  epochs : ℕ
  thr : ℚ
  nMax : ℕ
  nMin : ℕ

/-- The loop-visible mutable state of `_dip_deck_training`: the per-era
epoch counter `i`, the cluster count `n_clusters_current`, the label
array, the dip matrix, and the flag of the `n_clusters_current == 1`
break (dipdeck.py:303-306).  Centers and embeddings influence the control
flow only through the recomputed labels and dip values, which the oracle
provides. -/
structure TState where
  i : ℕ
  n : ℕ
  labels : List ℕ
  dip : ℕ → ℕ → ℚ
  brk : Bool

/-- The external collaborators of one epoch: batch optimization
(dipdeck.py:196-231) changes only the autoencoder (the label write at
line 210 is commented out), and every recomputation of labels
(nearest-center assignment on the fresh embedding, dipdeck.py:235) or of
a dip matrix (dipdeck.py:240, 292, 372) depends on the learned encoder,
so each is modelled as an arbitrary function of the visible state. -/
structure Oracle where
  embLabels : TState → List ℕ
  embDip : TState → ℕ → ℕ → ℚ
  mergeDip : ℕ → List ℕ → ℕ → ℕ → ℚ
  removeTarget : TState → ℕ → ℕ
  removeDip : ℕ → List ℕ → ℕ → ℕ → ℚ

/-- Result of the merge phase: epoch counter, cluster count, labels and
dip matrix after the inner `while` of dipdeck.py:254-266. -/
structure MergePhase where
  i : ℕ
  n : ℕ
  labels : List ℕ
  dip : ℕ → ℕ → ℚ

/-- The merge phase of one epoch (dipdeck.py:252-266): while the maximal
dip entry reaches the threshold and more than `n_clusters_min` clusters
remain, reset the epoch counter to 0, decrement the cluster count,
relabel with the merge executor and continue with the recomputed dip
matrix.  Structural recursion on the cluster count, which every pass
decrements by one. -/
def mergeLoopGo (O : Oracle) (cfg : Config) :
    ℕ → ℕ → List ℕ → (ℕ → ℕ → ℚ) → MergePhase
  | i, 0, labels, dip => ⟨i, 0, labels, dip⟩
  | i, n + 1, labels, dip =>
    let p := argmaxPair dip (n + 1)
    if cfg.thr ≤ dip p.1 p.2 ∧ cfg.nMin < n + 1 then
      let labels' := mergeLabels p.1 p.2 n labels
      mergeLoopGo O cfg 0 n labels' (O.mergeDip n labels')
    else ⟨i, n + 1, labels, dip⟩

/-- One pass of the outer `while` body of `_dip_deck_training`
(dipdeck.py:188-306): batch optimization (external), recomputation of
labels and dip matrix (dipdeck.py:233-241), the epoch-counter increment
(dipdeck.py:250), the merge phase, the forced correction when the era
ended with too many clusters (dipdeck.py:268-302; the Python constant
`0.2` is the rational 1/5), and the single-cluster break check recorded
in `brk`. -/
def epochBody (O : Oracle) (cfg : Config) (s : TState) : TState :=
  let labels1 := O.embLabels s
  let dip1 := O.embDip s
  let m := mergeLoopGo O cfg (s.i + 1) s.n labels1 dip1
  if m.i = cfg.epochs ∧ cfg.nMax < m.n then
    let counts := (uniqueCounts m.labels).map (fun q => q.2)
    let sid := idxOfMinN counts
    let ssize := counts.getD sid 0
    let n3 := m.n - 1
    if (ssize : ℚ) < 1 / 5 * meanN counts then
      let labels3 := removeRelabel (O.removeTarget s) sid m.labels
      ⟨0, n3, labels3, O.removeDip n3 labels3, decide (n3 = 1)⟩
    else
      let p := argmaxPair m.dip m.n
      let labels3 := mergeLabels p.1 p.2 n3 m.labels
      ⟨0, n3, labels3, O.mergeDip n3 labels3, decide (n3 = 1)⟩
  else ⟨m.i, m.n, m.labels, m.dip, decide (m.n = 1)⟩

/-- The loop guard of `_dip_deck_training`: the run is over once the
break flag is set or the per-era epoch counter has exhausted the budget
(`while i < clustering_epochs`, dipdeck.py:188). -/
def loopTerminal (cfg : Config) (s : TState) : Bool :=
  s.brk || decide (cfg.epochs ≤ s.i)

/-- One guarded step of the training loop. -/
def loopStep (O : Oracle) (cfg : Config) (s : TState) : TState :=
  if loopTerminal cfg s then s else epochBody O cfg s

/-- Iterated guarded steps of the training loop. -/
def loopIter (O : Oracle) (cfg : Config) : ℕ → TState → TState
  | 0, s => s
  | k + 1, s => loopIter O cfg k (loopStep O cfg s)

/-- Termination measure of the training loop: lexicographic in the
cluster count and the remaining epoch budget. -/
def loopMeasure (cfg : Config) (s : TState) : ℕ :=
  s.n * (cfg.epochs + 1) + (cfg.epochs - s.i)

/-- A degenerate oracle (empty relabelings, zero dip matrices) for
concrete runs. -/
def trivialOracle : Oracle where
  embLabels := fun _ => []
  embDip := fun _ _ _ => 0
  mergeDip := fun _ _ _ _ => 0
  removeTarget := fun _ _ => 0
  removeDip := fun _ _ _ _ => 0

/-- The merge phase either performs no merge (counter and count
unchanged) or resets the counter to 0 with a strictly smaller cluster
count. -/
theorem mergeLoopGo_cases (O : Oracle) (cfg : Config) :
    ∀ (n i : ℕ) (labels : List ℕ) (dip : ℕ → ℕ → ℚ),
      ((mergeLoopGo O cfg i n labels dip).i = i ∧ (mergeLoopGo O cfg i n labels dip).n = n) ∨
      ((mergeLoopGo O cfg i n labels dip).i = 0 ∧ (mergeLoopGo O cfg i n labels dip).n < n) := by
  intro n
  induction n with
  | zero => intro i labels dip; left; exact ⟨rfl, rfl⟩
  | succ n ih =>
    intro i labels dip
    simp only [mergeLoopGo]
    split_ifs with h
    · rcases ih 0 (mergeLabels (argmaxPair dip (n + 1)).1 (argmaxPair dip (n + 1)).2 n labels)
        (O.mergeDip n (mergeLabels (argmaxPair dip (n + 1)).1 (argmaxPair dip (n + 1)).2 n labels))
        with ⟨h1, h2⟩ | ⟨h1, h2⟩
      · right; exact ⟨h1, by omega⟩
      · right; exact ⟨h1, by omega⟩
    · left; exact ⟨rfl, rfl⟩

/-- The merge phase never pushes the cluster count below
`n_clusters_min` (the guard `n_clusters_current > n_clusters_min`,
dipdeck.py:254). -/
theorem mergeLoopGo_nMin (O : Oracle) (cfg : Config) :
    ∀ (n i : ℕ) (labels : List ℕ) (dip : ℕ → ℕ → ℚ), cfg.nMin ≤ n →
      cfg.nMin ≤ (mergeLoopGo O cfg i n labels dip).n := by
  intro n
  induction n with
  | zero => intro i labels dip h; exact h
  | succ n ih =>
    intro i labels dip h
    simp only [mergeLoopGo]
    split_ifs with hg
    · exact ih 0 _ _ (by omega)
    · exact h

/-- One epoch body either advances the epoch counter with the cluster
count unchanged, or resets the counter to 0 with a strictly smaller
cluster count. -/
theorem epochBody_cases (O : Oracle) (cfg : Config) (s : TState) :
    ((epochBody O cfg s).i = s.i + 1 ∧ (epochBody O cfg s).n = s.n) ∨
    ((epochBody O cfg s).i = 0 ∧ (epochBody O cfg s).n < s.n) := by
  simp only [epochBody]
  rcases mergeLoopGo_cases O cfg s.n (s.i + 1) (O.embLabels s) (O.embDip s)
    with ⟨h1, h2⟩ | ⟨h1, h2⟩ <;>
    split_ifs with hf hsmall <;> dsimp only <;> omega

/-- One epoch body preserves the `n_clusters_min` lower bound, given
`n_clusters_min ≤ n_clusters_max` (a forced correction fires only above
`n_clusters_max`, dipdeck.py:268). -/
theorem epochBody_nMin (O : Oracle) (cfg : Config) (s : TState)
    (h1 : cfg.nMin ≤ cfg.nMax) (h2 : cfg.nMin ≤ s.n) :
    cfg.nMin ≤ (epochBody O cfg s).n := by
  simp only [epochBody]
  have hm := mergeLoopGo_nMin O cfg s.n (s.i + 1) (O.embLabels s) (O.embDip s) h2
  split_ifs with hf hsmall <;> dsimp only <;> omega

/-- The break flag recorded by an epoch body is exactly the
`n_clusters_current == 1` test (dipdeck.py:303). -/
theorem epochBody_brk (O : Oracle) (cfg : Config) (s : TState) :
    (epochBody O cfg s).brk = decide ((epochBody O cfg s).n = 1) := by
  simp only [epochBody]
  split_ifs <;> rfl

theorem loopIter_succ_commute (O : Oracle) (cfg : Config) :
    ∀ (k : ℕ) (s : TState),
      loopIter O cfg (k + 1) s = loopStep O cfg (loopIter O cfg k s) := by
  intro k
  induction k with
  | zero => intro s; rfl
  | succ k ih =>
    intro s
    calc loopIter O cfg (k + 1 + 1) s
        = loopIter O cfg (k + 1) (loopStep O cfg s) := rfl
      _ = loopStep O cfg (loopIter O cfg k (loopStep O cfg s)) := ih _
      _ = loopStep O cfg (loopIter O cfg (k + 1) s) := rfl

/-- C3: the training loop terminates for every oracle (that is, assuming
every external collaborator call terminates): some number of guarded
steps reaches the loop guard; reaching a single cluster sets the break
flag, so the loop stops immediately regardless of remaining budget; and
every non-final epoch strictly decreases the lexicographic measure in
(cluster count, remaining budget) — well-founded because every reset of
the epoch counter comes with a strict decrease of the cluster count. -/
theorem training_loop_terminates (O : Oracle) (cfg : Config) (s : TState) :
    (∃ k, loopTerminal cfg (loopIter O cfg k s) = true) ∧
    ((epochBody O cfg s).n = 1 → (epochBody O cfg s).brk = true) ∧
    (∀ s' : TState, loopTerminal cfg s' = false →
      loopMeasure cfg (epochBody O cfg s') < loopMeasure cfg s') := by
  have hmeas : ∀ s' : TState, loopTerminal cfg s' = false →
      loopMeasure cfg (epochBody O cfg s') < loopMeasure cfg s' := by
    intro s' hterm
    have hi : s'.i < cfg.epochs := by
      simp only [loopTerminal, Bool.or_eq_false_iff, decide_eq_false_iff_not] at hterm
      omega
    rcases epochBody_cases O cfg s' with ⟨h1, h2⟩ | ⟨h1, h2⟩
    · rw [loopMeasure, loopMeasure, h1, h2]
      exact Nat.add_lt_add_left (by omega) _
    · rw [loopMeasure, loopMeasure, h1]
      have hb : (epochBody O cfg s').n + 1 ≤ s'.n := h2
      calc (epochBody O cfg s').n * (cfg.epochs + 1) + (cfg.epochs - 0)
          < ((epochBody O cfg s').n + 1) * (cfg.epochs + 1) := by
            rw [add_mul, one_mul]; omega
        _ ≤ s'.n * (cfg.epochs + 1) := mul_le_mul_right' hb _
        _ ≤ s'.n * (cfg.epochs + 1) + (cfg.epochs - s'.i) := Nat.le_add_right _ _
  have main : ∀ (m : ℕ) (s0 : TState), loopMeasure cfg s0 ≤ m →
      ∃ k, loopTerminal cfg (loopIter O cfg k s0) = true := by
    intro m
    induction m with
    | zero =>
      intro s0 hm
      cases hterm : loopTerminal cfg s0 with
      | true => exact ⟨0, hterm⟩
      | false =>
        have := hmeas s0 hterm
        omega
    | succ m ih =>
      intro s0 hm
      cases hterm : loopTerminal cfg s0 with
      | true => exact ⟨0, hterm⟩
      | false =>
        have hd := hmeas s0 hterm
        obtain ⟨k, hk⟩ := ih (epochBody O cfg s0) (by omega)
        refine ⟨k + 1, ?_⟩
        have hstep : loopStep O cfg s0 = epochBody O cfg s0 := by
          simp [loopStep, hterm]
        rw [loopIter, hstep]
        exact hk
  refine ⟨main (loopMeasure cfg s) s le_rfl, ?_, hmeas⟩
  intro h1
  rw [epochBody_brk O cfg s, h1]
  simp

/-- C4: along every run and for every oracle the cluster count is
monotonically non-increasing, and with a valid configuration
(`n_clusters_min ≤ n_clusters_max`) and a start count at or above
`n_clusters_min` it never drops below `n_clusters_min`. -/
theorem n_clusters_monotone_bounded (O : Oracle) (cfg : Config) (s : TState) (k : ℕ)
    (hcfg : cfg.nMin ≤ cfg.nMax) (hstart : cfg.nMin ≤ s.n) :
    (loopIter O cfg (k + 1) s).n ≤ (loopIter O cfg k s).n ∧
      cfg.nMin ≤ (loopIter O cfg k s).n := by
  have hstepn : ∀ s' : TState, (loopStep O cfg s').n ≤ s'.n := by
    intro s'
    rw [loopStep]
    split_ifs with h
    · exact le_refl _
    · rcases epochBody_cases O cfg s' with ⟨_, h2⟩ | ⟨_, h2⟩ <;> omega
  have hstepmin : ∀ s' : TState, cfg.nMin ≤ s'.n → cfg.nMin ≤ (loopStep O cfg s').n := by
    intro s' h
    rw [loopStep]
    split_ifs with hterm
    · exact h
    · exact epochBody_nMin O cfg s' hcfg h
  have hinv : ∀ k' : ℕ, cfg.nMin ≤ (loopIter O cfg k' s).n := by
    intro k'
    induction k' with
    | zero => exact hstart
    | succ k' ih =>
      rw [loopIter_succ_commute]
      exact hstepmin _ ih
  refine ⟨?_, hinv k⟩
  rw [loopIter_succ_commute]
  exact hstepn _

theorem n_clusters_monotone_bounded_witness :
    ((Config.mk 1 (1 / 2) 3 1).nMin ≤ (Config.mk 1 (1 / 2) 3 1).nMax ∧
      (Config.mk 1 (1 / 2) 3 1).nMin ≤ (TState.mk 0 2 [0, 1] (fun _ _ => 0) false).n) ∧
    ((loopIter trivialOracle (Config.mk 1 (1 / 2) 3 1) (0 + 1)
        (TState.mk 0 2 [0, 1] (fun _ _ => 0) false)).n ≤
      (loopIter trivialOracle (Config.mk 1 (1 / 2) 3 1) 0
        (TState.mk 0 2 [0, 1] (fun _ _ => 0) false)).n ∧
      (Config.mk 1 (1 / 2) 3 1).nMin ≤ (loopIter trivialOracle (Config.mk 1 (1 / 2) 3 1) 0
        (TState.mk 0 2 [0, 1] (fun _ _ => 0) false)).n) := by
  constructor
  · exact ⟨by decide, by decide⟩
  · exact n_clusters_monotone_bounded trivialOracle (Config.mk 1 (1 / 2) 3 1)
      (TState.mk 0 2 [0, 1] (fun _ _ => 0) false) 0 (by decide) (by decide)

end ClustPy
